import Mathlib

/-!
# segrnn-predict: lattice decoding driver

A shallow embedding of `src/segrnn-predict.cc` (the `prediction_env`
constructor and `prediction_env::run`) together with the lattice builder,
topological ordering and best-path search that `run` calls.
-/

namespace Segbin

/-! ## Lattice -/

/-- One lattice edge: the span from `tail` to `head` carries label id `output`. -/
structure Edge where
  tail : Nat
  head : Nat
  output : Nat
  deriving DecidableEq, Repr, Inhabited

/-- The graph handed to the search: vertices `0 .. T`, edges addressed by
their index in `edges` (the `int` edge handles of `run`). -/
structure Lattice where
  T : Nat
  edges : List Edge
  deriving DecidableEq, Repr

namespace Lattice

/-- Accessor `graph.tail(e)`. -/
def tail (g : Lattice) (e : Nat) : Nat := (g.edges.getD e default).tail

/-- Accessor `graph.head(e)`. -/
def head (g : Lattice) (e : Nat) : Nat := (g.edges.getD e default).head

/-- Accessor `graph.output(e)`. -/
def output (g : Lattice) (e : Nat) : Nat := (g.edges.getD e default).output

/-- Accessor `graph.time(v)`: a vertex is its frame-time boundary. -/
def time (_g : Lattice) (v : Nat) : Nat := v

/-- Number of vertices, `T + 1`. -/
def nverts (g : Lattice) : Nat := g.T + 1

end Lattice

/-- Stride alignment rule of the spec: `t1` is `0` or a multiple of `stride`. -/
def aligned (stride : Int) (t1 : Nat) : Bool :=
  decide (t1 = 0) || decide (stride ∣ (t1 : Int))

/-- Segment-length rule of the spec: `t1 < t2 ≤ T` and
`t2 - t1 ∈ [min_seg, max_seg]`. -/
def seg_ok (T : Nat) (min_seg max_seg : Int) (t1 t2 : Nat) : Bool :=
  decide (t1 < t2) && decide (t2 ≤ T) &&
    decide (min_seg ≤ (t2 : Int) - (t1 : Int)) && decide ((t2 : Int) - (t1 : Int) ≤ max_seg)

/-- Modelled from the spec: `seg::make_graph` (declared in `seg/seg-util.h`,
not among the sources). Spec 4.1: for every pair `(t1, t2)` with
`t1 < t2 ≤ T`, `t2 - t1 ∈ [min_seg, max_seg]` and `t1` stride-aligned, and
for every label `l ∈ [0, L)`, create one edge; the node set is `{0..T}`.
`L` is the size of the label set passed in. -/
def make_graph (T : Nat) (label_id : List (String × Nat)) (id_label : List String)
    (min_seg max_seg stride : Int) : Lattice :=
  let _ := label_id
  { T := T
    edges :=
      (List.range (T + 1)).flatMap fun t1 =>
        (List.range (T + 1)).flatMap fun t2 =>
          if aligned stride t1 && seg_ok T min_seg max_seg t1 t2 then
            (List.range id_label.length).map fun l => { tail := t1, head := t2, output := l }
          else [] }

/-! ## Topological order -/

/-- A vertex is ready when no edge enters it from a vertex still waiting. -/
def ready (g : Lattice) (waiting : List Nat) (v : Nat) : Bool :=
  g.edges.all fun e => !(decide (e.head = v) && decide (e.tail ∈ waiting))

/-- Loop of `topo_order`: repeatedly emit a ready vertex. -/
def topo_loop (g : Lattice) : Nat → List Nat → List Nat
  | 0, _ => []
  | fuel + 1, waiting =>
    match waiting.find? (ready g waiting) with
    | none => []
    | some v => v :: topo_loop g fuel (waiting.erase v)

/-- Modelled from the spec: `fst::topo_order` (declared in `fst/fst-algo.h`,
not among the sources). Spec 4.1: the ordering is computed by a generic DAG
algorithm, not by sorting vertices by index; here a vertex is emitted once
all its predecessors have been emitted. -/
def topo_order (g : Lattice) : List Nat :=
  topo_loop g g.nverts (List.range g.nverts)

/-! ## Best-path search -/

/-- Search state: per vertex the best cumulative score reaching it
(`none` is minus infinity) and the predecessor edge achieving it. -/
structure Search (S : Type) where
  best : Nat → Option S
  pred : Nat → Option Nat

/-- Failures raised while decoding. -/
inductive Err where
  | no_path
  | out_of_range
  | invalid_argument
  | empty_utterance
  deriving DecidableEq, Repr

variable {S : Type} [LinearOrderedAddCommMonoid S]

/-- Relax edge `e`: update the head's best score and predecessor when the
new total is strictly greater. -/
def relax (g : Lattice) (w : Nat → S) (st : Search S) (e : Nat) : Search S :=
  match st.best (g.tail e) with
  | none => st
  | some d =>
    let total := d + w e
    match st.best (g.head e) with
    | none =>
      { best := Function.update st.best (g.head e) (some total)
        pred := Function.update st.pred (g.head e) (some e) }
    | some old =>
      if old < total then
        { best := Function.update st.best (g.head e) (some total)
          pred := Function.update st.pred (g.head e) (some e) }
      else st

/-- Edges leaving `v`, in enumeration order. -/
def out_edges (g : Lattice) (v : Nat) : List Nat :=
  (List.range g.edges.length).filter fun e => decide (g.tail e = v)

/-- Visit vertex `v`: relax every outgoing edge. -/
def visit (g : Lattice) (w : Nat → S) (st : Search S) (v : Nat) : Search S :=
  (out_edges g v).foldl (relax g w) st

/-- Initial state: vertex `0` at score `0`, every other vertex at minus infinity. -/
def search_init : Search S :=
  { best := fun v => if v = 0 then some 0 else none
    pred := fun _ => none }

/-- Walk predecessor links backward from `v` to vertex `0`, collecting the
edges met (latest first). -/
def walk_back (g : Lattice) (st : Search S) : Nat → Nat → Option (List Nat)
  | _, 0 => some []
  | 0, _ + 1 => none
  | fuel + 1, v + 1 =>
    match st.pred (v + 1) with
    | none => none
    | some e => (walk_back g st fuel (g.tail e)).map fun p => e :: p

/-- Modelled from the spec: `fst::shortest_path` (declared in
`fst/fst-algo.h`, not among the sources). Spec 4.3: process vertices in
topological order relaxing outgoing edges; if vertex `T` is still at minus
infinity fail with an explicit error; otherwise walk predecessor links from
`T` back to `0` and reverse. -/
def shortest_path (g : Lattice) (order : List Nat) (w : Nat → S) : Except Err (List Nat) :=
  let st := order.foldl (visit g w) search_init
  match st.best g.T with
  | none => .error .no_path
  | some _ =>
    match walk_back g st g.nverts g.T with
    | none => .error .no_path
    | some p => .ok p.reverse

/-- Cumulative score of a path. -/
def path_score (w : Nat → S) (p : List Nat) : S := (p.map w).sum

/-- The list `p` of edge handles is a path of `g` from `u` to `v`. -/
def is_path (g : Lattice) : Nat → List Nat → Nat → Prop
  | u, [], v => u = v
  | u, e :: p, v => e < g.edges.length ∧ g.tail e = u ∧ is_path g (g.head e) p v

/-- Deciding `is_path` by running down the list. -/
instance is_path_decidable (g : Lattice) : (u : Nat) → (p : List Nat) → (v : Nat) →
    Decidable (is_path g u p v)
  | u, [], v => inferInstanceAs (Decidable (u = v))
  | u, e :: p, v =>
    have := is_path_decidable g (g.head e) p v
    inferInstanceAs (Decidable (e < g.edges.length ∧ g.tail e = u ∧ is_path g (g.head e) p v))

/-- Every edge goes forward in time and ends at a vertex of the lattice. -/
def forward (g : Lattice) : Prop :=
  ∀ e ∈ g.edges, e.tail < e.head ∧ e.head ≤ g.T

/-- The list `order` holds every vertex, and each vertex comes after the
tails of all edges entering it. -/
def topo_valid (g : Lattice) (order : List Nat) : Prop :=
  (∀ v, v ≤ g.T → v ∈ order) ∧
    ∀ done u rest, order = done ++ u :: rest →
      ∀ e, e < g.edges.length → g.head e = u → g.tail e ∈ done

/-- Predecessor links are consistent: vertex `0` stays at score `0`, and
every other reached vertex has a predecessor edge ending at it whose tail is
reached with a score that accounts for the vertex's own. -/
def pred_ok (g : Lattice) (w : Nat → S) (st : Search S) : Prop :=
  st.best 0 = some 0 ∧
    ∀ v d, st.best v = some d → v ≠ 0 →
      ∃ e d', st.pred v = some e ∧ e < g.edges.length ∧ g.head e = v ∧
        st.best (g.tail e) = some d' ∧ d ≤ d' + w e

/-- Every path whose last edge leaves a vertex of `done` is accounted for
in the best score of its end vertex. -/
def opt_ok (g : Lattice) (w : Nat → S) (st : Search S) (done : List Nat) : Prop :=
  ∀ q e, e < g.edges.length → g.tail e ∈ done → is_path g 0 q (g.tail e) →
    ∃ d, st.best (g.head e) = some d ∧ path_score w q + w e ≤ d

/-! ## Collaborators outside the driver -/

/-- A dense tensor as the driver sees it: a flat buffer and its shape. -/
structure Tensor (S : Type) where
  data : List S
  sizes : List Nat

/-- Accessor `size(0)`: the number of rows. -/
def Tensor.size0 {S : Type} (t : Tensor S) : Nat := t.sizes.getD 0 0

/-- What one call of `speech::load_frame_batch` leaves behind: the frames it
returned and the state flags of the stream afterwards. -/
structure Read (S : Type) where
  frames : List (List S)
  eofbit : Bool
  failbit : Bool
  badbit : Bool

/-- The test `!frame_batch` of the loop: `failbit` or `badbit` is set. -/
def Read.failed {S : Type} (r : Read S) : Bool := r.failbit || r.badbit

/-- A transcriber maps a parameter subtree and the input tensor to a pair of
outputs, of which the driver keeps the first. -/
abbrev Transcriber (S V : Type) := V → Tensor S → Tensor S × Tensor S

/-- Library routines the driver calls whose sources are not part of the
program; each is taken as given. `P` is the parameter tree, `V` the tree of
graph variables built from it for one utterance. -/
structure Lib (S P V : Type) where
  split : String → String → List String
  first_line : String → String
  load_param : List String → Int → String → P
  load_label_set : String → List String
  open_frames : String → List (Read S)
  make_var_tree : P → V
  child : V → Nat → V
  make_transcriber : Int → Transcriber S V
  make_pyramid_transcriber : Int → Transcriber S V
  logsoftmax_transcriber : Transcriber S V → Transcriber S V
  make_weights : List String → V → Tensor S → Lattice → Nat → S

/-! ## Argument map and integer parsing -/

/-- Lookup in the argument map. -/
def args_find (args : List (String × String)) (k : String) : Option String :=
  (args.find? fun kv => kv.1 == k).map Prod.snd

/-- Test `ebt::in(key, args)`. -/
def args_in (args : List (String × String)) (k : String) : Bool :=
  (args_find args k).isSome

/-- Assignment `m[k] = v` on the label map: overwrite the entry of `k` if
there is one, insert otherwise. -/
def assign : List (String × Nat) → String → Nat → List (String × Nat)
  | [], k, v => [(k, v)]
  | (k', v') :: rest, k, v =>
    if k' = k then (k, v) :: rest else (k', v') :: assign rest k v

/-- Lookup in the label map. -/
def label_find : List (String × Nat) → String → Option Nat
  | [], _ => none
  | (k', v') :: rest, k => if k' = k then some v' else label_find rest k

/-- The loop `for i: label_id[id_label[i]] = i` of the constructor, started
at index `i` with the map built so far. -/
def label_loop : List String → Nat → List (String × Nat) → List (String × Nat)
  | [], _, m => m
  | s :: rest, i, m => label_loop rest (i + 1) (assign m s i)

/-- The map `label_id` the constructor builds from `id_label`. -/
def build_label_id (id_label : List String) : List (String × Nat) :=
  label_loop id_label 0 []

/-! ## The environment and its constructor -/

/-- Fields of `prediction_env`. -/
structure Env (S P : Type) where
  features : List String
  frame_batch : List (Read S)
  min_seg : Int
  max_seg : Int
  stride : Int
  layer : Int
  param : P
  id_label : List String
  label_id : List (String × Nat)
  args : List (String × String)

/-- One item written to standard output by an `operator<<` of `run`. -/
inductive Tok where
  | num (n : Nat)
  | str (s : String)
  | endl
  deriving DecidableEq, Repr

/-- Standard output so far, and the exception in flight if there is one. -/
structure Out where
  toks : List Tok
  err : Option Err
  deriving DecidableEq, Repr

/-- The buffer `frame_cat` after the loop that appends every frame at its end. -/
def frame_cat {S : Type} (frames : List (List S)) : List S :=
  frames.foldl (fun acc f => acc ++ f) []

/-- The input variable of the computation graph: a view of `frame_cat` with
shape `{nframes, ndim}`, where `ndim` is the length of the first frame. The
loops of the program count frames with an `int`, so in every defined run the
two counts are below `2^31` and their conversion to `unsigned int` is exact;
they are kept as natural numbers. -/
def input_tensor {S : Type} (frames : List (List S)) (first : List S) : Tensor S :=
  { data := frame_cat frames, sizes := [frames.length, first.length] }

/-- Output of the transcriber selected by the `subsampling` and
`logsoftmax` options (the value `hidden` of `run`). -/
def encode {S P V : Type} (lib : Lib S P V) (env : Env S P) (var_tree : V)
    (input : Tensor S) : Tensor S :=
  let trans :=
    if args_in env.args "subsampling" then lib.make_pyramid_transcriber env.layer
    else lib.make_transcriber env.layer
  if args_in env.args "logsoftmax" then
    (lib.logsoftmax_transcriber trans (lib.child var_tree 1) input).1
  else
    (trans (lib.child (lib.child var_tree 1) 0) input).1

/-- The value `hidden` of `run` for one utterance whose first frame is
`first`: the selected transcriber applied to the input tensor. -/
def hidden_of {S P V : Type} (lib : Lib S P V) (env : Env S P) (frames : List (List S))
    (first : List S) : Tensor S :=
  encode lib env (lib.make_var_tree env.param) (input_tensor frames first)

/-- The lattice `graph_data.fst` that `run` builds for one utterance. -/
def utterance_graph {S P V : Type} (lib : Lib S P V) (env : Env S P) (frames : List (List S))
    (first : List S) : Lattice :=
  make_graph (hidden_of lib env frames first).size0 env.label_id env.id_label
    env.min_seg env.max_seg env.stride

/-- The weight function `graph_data.weight_func` bound for one utterance. -/
def utterance_weights {S P V : Type} (lib : Lib S P V) (env : Env S P) (frames : List (List S))
    (first : List S) : Nat → S :=
  lib.make_weights env.features (lib.child (lib.make_var_tree env.param) 0)
    (hidden_of lib env frames first) (utterance_graph lib env frames first)

/-- Lines 129 to 178 of `run` for one utterance: encode the frames, build
the lattice and its topological order, bind the weights and search. The
result is the lattice and the path found. Taking `frames.front()` of an
utterance without frames is undefined in the program; here it is an error. -/
def decode_path {P V : Type} (lib : Lib S P V) (env : Env S P) (frames : List (List S)) :
    Except Err (Lattice × List Nat) :=
  match frames.head? with
  | none => .error .empty_utterance
  | some first =>
    let fst := utterance_graph lib env frames first
    let order := topo_order fst
    let weight_func := utterance_weights lib env frames first
    match shortest_path fst order weight_func with
    | .error e => .error e
    | .ok path => .ok (fst, path)

/-- The loop of the `print-path` branch: one record per edge of the path.
Operands are written left to right, so when `id_label.at` throws the two
times of that record are already out. -/
def print_records (g : Lattice) (id_label : List String) : List Nat → Out
  | [] => { toks := [], err := none }
  | e :: p =>
    match id_label[g.output e]? with
    | none =>
      { toks := [.num (g.time (g.tail e)), .str " ", .num (g.time (g.head e)), .str " "]
        err := some .out_of_range }
    | some l =>
      let r := print_records g id_label p
      { toks := [.num (g.time (g.tail e)), .str " ", .num (g.time (g.head e)), .str " ",
                 .str l, .endl] ++ r.toks
        err := r.err }

/-- The loop of the other branch: the label of every edge followed by a
blank. -/
def print_labels (g : Lattice) (id_label : List String) : List Nat → Out
  | [] => { toks := [], err := none }
  | e :: p =>
    match id_label[g.output e]? with
    | none => { toks := [], err := some .out_of_range }
    | some l =>
      let r := print_labels g id_label p
      { toks := [.str l, .str " "] ++ r.toks, err := r.err }

/-- Lines 180 to 194 of `run`: write the path of utterance `nsample`. -/
def print_utterance {P : Type} (env : Env S P) (g : Lattice) (path : List Nat) (nsample : Nat) :
    Out :=
  if args_in env.args "print-path" then
    let r := print_records g env.id_label path
    match r.err with
    | some e => { toks := [.num nsample, .str ".txt", .endl] ++ r.toks, err := some e }
    | none =>
      { toks := [.num nsample, .str ".txt", .endl] ++ r.toks ++ [.str ".", .endl], err := none }
  else
    let r := print_labels g env.id_label path
    match r.err with
    | some e => { toks := r.toks, err := some e }
    | none =>
      { toks := r.toks ++ [.str "(", .num nsample, .str ".dot)", .endl], err := none }

/-- One pass through the body of the loop after a successful read. -/
def decode {P V : Type} (lib : Lib S P V) (env : Env S P) (frames : List (List S))
    (nsample : Nat) : Out :=
  match decode_path lib env frames with
  | .error e => { toks := [], err := some e }
  | .ok (g, path) => print_utterance env g path nsample

/-- The loop of `run` over the successive reads of the frame stream, the
sample counter being `nsample` (an `int` in the program, here a natural
number). An exception raised while decoding leaves the loop, since `run`
catches none. A stream with no read left is at its end. -/
def run_loop {P V : Type} (lib : Lib S P V) (env : Env S P) : List (Read S) → Nat → Out
  | [], _ => { toks := [], err := none }
  | r :: rest, nsample =>
    if r.failed then { toks := [], err := none }
    else
      let o := decode lib env r.frames nsample
      match o.err with
      | some e => { toks := o.toks, err := some e }
      | none =>
        let o2 := run_loop lib env rest (nsample + 1)
        { toks := o.toks ++ o2.toks, err := o2.err }

/-- Method `prediction_env::run`. -/
def run {P V : Type} (lib : Lib S P V) (env : Env S P) : Out :=
  run_loop lib env env.frame_batch 1

/-! ## A small concrete program for evaluation -/

/-- Scoring rule of the end-to-end example: label `a` (id 0) scores 1,
label `b` scores 0, plus one tenth per frame of length beyond 1. -/
def example_score (g : Lattice) (e : Nat) : ℚ :=
  (if g.output e = 0 then 1 else 0) + ((g.head e : ℚ) - (g.tail e : ℚ) - 1) / 10

/-- Lattice of the end-to-end example: `T = 4`, two labels, segments of
length 1 or 2, stride 1. -/
def example_graph : Lattice := make_graph 4 [("a", 0), ("b", 1)] ["a", "b"] 1 2 1

/-- A library whose transcribers return one row per input row (plain) or
one row per two input rows (pyramid) and whose weights are the example's. -/
def example_lib : Lib ℚ Unit Unit :=
  { split := fun s _ => [s]
    first_line := fun _ => "1"
    load_param := fun _ _ _ => ()
    load_label_set := fun _ => ["a", "b"]
    open_frames := fun _ => []
    make_var_tree := fun _ => ()
    child := fun _ _ => ()
    make_transcriber := fun _ _ x => (x, x)
    make_pyramid_transcriber := fun _ _ x =>
      ({ data := x.data, sizes := [(x.size0 + 1) / 2] }, x)
    logsoftmax_transcriber := fun t => t
    make_weights := fun _ _ _ g e => example_score g e }

/-- The example library with a plain transcriber that returns no row. -/
def example_lib_empty : Lib ℚ Unit Unit :=
  { example_lib with make_transcriber := fun _ _ x => ({ data := [], sizes := [0] }, x) }

/-- Arguments of the example: required settings and segments of length 1 or 2. -/
def example_args : List (String × String) :=
  [("features", "f"), ("frame-batch", "x"), ("param", "p"), ("label", "l"),
   ("min-seg", "1"), ("max-seg", "2"), ("stride", "1")]

/-- The read `r` succeeded and its utterance decodes without an exception. -/
def decodes_ok {P V : Type} (lib : Lib S P V) (env : Env S P) (r : Read S) : Prop :=
  r.failed = false ∧ ∀ n, (decode lib env r.frames n).err = none

/-- Environment the constructor builds from `example_args`. -/
def example_env : Env ℚ Unit :=
  { features := ["f"], frame_batch := [], min_seg := 1, max_seg := 2, stride := 1, layer := 1,
    param := (), id_label := ["a", "b"], label_id := [("a", 0), ("b", 1)], args := example_args }

/-- A successful read of an utterance of `n` frames of one value each. -/
def example_read (n : Nat) : Read ℚ :=
  { frames := List.replicate n [0], eofbit := false, failbit := false, badbit := false }

/-- A read that failed in the middle of a record: one frame was returned,
`failbit` is set and the stream is not at its end. -/
def example_truncated : Read ℚ :=
  { frames := [[0]], eofbit := false, failbit := true, badbit := false }

/-- The example environment with segments of exactly five frames. -/
def example_env_long : Env ℚ Unit :=
  { example_env with min_seg := 5, max_seg := 5 }

/-- The example environment reading one utterance and then a read that
fails in the middle of a record. -/
def example_env_truncated : Env ℚ Unit :=
  { example_env with frame_batch := [example_read 4, example_truncated] }

/-- The example environment reading one utterance before the stream ends. -/
def example_env_clean : Env ℚ Unit :=
  { example_env with frame_batch := [example_read 4] }

/-- Frames of unequal lengths. -/
def example_ragged : List (List Nat) := [[1, 2], [3], [4, 5, 6]]

deriving instance DecidableEq for Except

end Segbin

namespace Segbin

/-! ## The flattened frame buffer -/

theorem foldl_append_flatten {S : Type} (frames : List (List S)) (acc : List S) :
    frames.foldl (fun acc f => acc ++ f) acc = acc ++ frames.flatten := by
  induction frames generalizing acc with
  | nil => simp
  | cons f fs ih => simp [ih, List.append_assoc]

theorem frame_cat_flatten {S : Type} (frames : List (List S)) :
    frame_cat frames = frames.flatten := by
  simp [frame_cat, foldl_append_flatten]

theorem flatten_uniform_length {S : Type} (frames : List (List S)) (d : Nat)
    (h : ∀ f ∈ frames, f.length = d) : frames.flatten.length = frames.length * d := by
  induction frames with
  | nil => simp
  | cons f fs ih =>
    have hf : f.length = d := h f (List.mem_cons_self _ _)
    have hfs : ∀ x ∈ fs, x.length = d := fun x hx => h x (List.mem_cons_of_mem _ hx)
    simp [ih hfs, hf, Nat.succ_mul, Nat.add_comm]

theorem flatten_uniform_get {S : Type} (frames : List (List S)) (d : Nat)
    (h : ∀ f ∈ frames, f.length = d) (i j : Nat) (hj : j < d) :
    frames.flatten[i * d + j]? = (frames[i]?).bind fun f => f[j]? := by
  induction frames generalizing i with
  | nil => simp
  | cons f fs ih =>
    have hf : f.length = d := h f (List.mem_cons_self _ _)
    have hfs : ∀ x ∈ fs, x.length = d := fun x hx => h x (List.mem_cons_of_mem _ hx)
    cases i with
    | zero =>
      simp only [Nat.zero_mul, Nat.zero_add, List.flatten_cons, List.getElem?_cons_zero,
        Option.some_bind]
      exact List.getElem?_append_left (by omega)
    | succ k =>
      have hidx : (k + 1) * d + j = f.length + (k * d + j) := by
        rw [hf, Nat.succ_mul]; omega
      rw [List.flatten_cons, hidx, List.getElem?_append_right (by omega)]
      simp only [Nat.add_sub_cancel_left, List.getElem?_cons_succ]
      exact ih hfs k

theorem flatten_length_sum {S : Type} (frames : List (List S)) :
    frames.flatten.length = (frames.map List.length).sum := by
  induction frames with
  | nil => simp
  | cons f fs ih => simp [ih]

end Segbin

namespace Segbin

/-! ## The label map -/

theorem label_find_assign (m : List (String × Nat)) (k : String) (v : Nat) (s : String) :
    label_find (assign m k v) s = if k = s then some v else label_find m s := by
  induction m with
  | nil => simp [assign, label_find]
  | cons kv rest ih =>
    obtain ⟨k', v'⟩ := kv
    by_cases hk : k' = k
    · subst hk
      by_cases hs : k' = s <;> simp [assign, label_find, hs]
    · by_cases hs : k' = s
      · subst hs
        have : ¬ k = k' := fun h => hk h.symm
        simp [assign, label_find, hk, this]
      · simp [assign, label_find, hk, hs, ih]

theorem label_find_isSome_iff (m : List (String × Nat)) (s : String) :
    (label_find m s).isSome ↔ s ∈ m.map Prod.fst := by
  induction m with
  | nil => simp [label_find]
  | cons kv rest ih =>
    obtain ⟨k', v'⟩ := kv
    by_cases hs : k' = s
    · simp [label_find, hs]
    · have : ¬ s = k' := fun h => hs h.symm
      simp [label_find, hs, this, ih]

theorem assign_length (m : List (String × Nat)) (k : String) (v : Nat) :
    (assign m k v).length = if k ∈ m.map Prod.fst then m.length else m.length + 1 := by
  induction m with
  | nil => simp [assign]
  | cons kv rest ih =>
    obtain ⟨k', v'⟩ := kv
    by_cases hk : k' = k
    · simp [assign, hk]
    · have : ¬ k = k' := fun h => hk h.symm
      simp only [assign, hk, if_false, List.length_cons, ih, List.map_cons, List.mem_cons, this,
        false_or]
      split <;> rfl

theorem assign_keys (m : List (String × Nat)) (k : String) (v : Nat) (s : String) :
    s ∈ (assign m k v).map Prod.fst ↔ s = k ∨ s ∈ m.map Prod.fst := by
  rw [← label_find_isSome_iff, label_find_assign, ← label_find_isSome_iff]
  by_cases h : k = s
  · simp [h]
  · have : ¬ s = k := fun h' => h h'.symm
    simp [h, this]

theorem label_loop_find_other (rest : List String) (i : Nat) (m : List (String × Nat))
    (s : String) (hs : s ∉ rest) : label_find (label_loop rest i m) s = label_find m s := by
  induction rest generalizing i m with
  | nil => rfl
  | cons t r ih =>
    have ht : ¬ t = s := fun h => hs (h ▸ List.mem_cons_self _ _)
    have hr : s ∉ r := fun h => hs (List.mem_cons_of_mem _ h)
    simp [label_loop, ih _ _ hr, label_find_assign, ht]

theorem label_loop_sound (full rest : List String) (i : Nat) (m : List (String × Nat))
    (hrest : ∀ j, rest[j]? = full[i + j]?)
    (hm : ∀ s v, label_find m s = some v → full[v]? = some s) :
    ∀ s v, label_find (label_loop rest i m) s = some v → full[v]? = some s := by
  induction rest generalizing i m with
  | nil => simpa [label_loop] using hm
  | cons t r ih =>
    apply ih (i + 1) (assign m t i)
    · intro j
      have := hrest (j + 1)
      simpa [Nat.add_assoc, Nat.add_comm 1 j] using this
    · intro s v hsv
      rw [label_find_assign] at hsv
      by_cases hts : t = s
      · simp only [hts, if_true, Option.some.injEq] at hsv
        have := hrest 0
        simp only [List.getElem?_cons_zero, Nat.add_zero] at this
        rw [← hsv, ← this, hts]
      · simp only [hts, if_false] at hsv
        exact hm s v hsv

theorem label_loop_nodup_find (rest : List String) (i : Nat) (m : List (String × Nat))
    (hnd : rest.Nodup) (j : Nat) (s : String) (hj : rest[j]? = some s) :
    label_find (label_loop rest i m) s = some (i + j) := by
  induction rest generalizing i m j with
  | nil => simp at hj
  | cons t r ih =>
    rw [List.nodup_cons] at hnd
    cases j with
    | zero =>
      simp only [List.getElem?_cons_zero, Option.some.injEq] at hj
      subst hj
      simp [label_loop, label_loop_find_other r _ _ t hnd.1, label_find_assign]
    | succ k =>
      simp only [List.getElem?_cons_succ] at hj
      simp only [label_loop]
      rw [ih (i + 1) (assign m t i) hnd.2 k hj]
      congr 1; omega

theorem label_loop_nodup_length (rest : List String) (i : Nat) (m : List (String × Nat))
    (hnd : rest.Nodup) (hdis : ∀ s ∈ rest, s ∉ m.map Prod.fst) :
    (label_loop rest i m).length = m.length + rest.length := by
  induction rest generalizing i m with
  | nil => simp [label_loop]
  | cons t r ih =>
    rw [List.nodup_cons] at hnd
    simp only [label_loop]
    rw [ih (i + 1) (assign m t i) hnd.2]
    · rw [assign_length]
      have : t ∉ m.map Prod.fst := hdis t (List.mem_cons_self _ _)
      simp only [this, if_false, List.length_cons]
      omega
    · intro s hs
      rw [assign_keys]
      rintro (h | h)
      · exact hnd.1 (h ▸ hs)
      · exact hdis s (List.mem_cons_of_mem _ hs) h

end Segbin

namespace Segbin

/-! ## Paths -/

theorem edge_mem (g : Lattice) (e : Nat) (he : e < g.edges.length) :
    g.edges.getD e default ∈ g.edges := by
  rw [List.getD_eq_getElem _ _ he]
  exact List.getElem_mem he

theorem forward_tail_lt (g : Lattice) (hf : forward g) (e : Nat) (he : e < g.edges.length) :
    g.tail e < g.head e := (hf _ (edge_mem g e he)).1

theorem forward_head_le (g : Lattice) (hf : forward g) (e : Nat) (he : e < g.edges.length) :
    g.head e ≤ g.T := (hf _ (edge_mem g e he)).2

theorem is_path_concat (g : Lattice) (u v : Nat) (p : List Nat) (e : Nat) :
    is_path g u (p ++ [e]) v ↔ is_path g u p (g.tail e) ∧ e < g.edges.length ∧ g.head e = v := by
  induction p generalizing u with
  | nil =>
    simp only [List.nil_append, is_path]
    constructor
    · rintro ⟨h1, h2, h3⟩; exact ⟨h2.symm, h1, h3⟩
    · rintro ⟨h1, h2, h3⟩; exact ⟨h2, h1.symm, h3⟩
  | cons a p ih =>
    have h := ih (g.head a)
    show (a < g.edges.length ∧ g.tail a = u ∧ is_path g (g.head a) (p ++ [e]) v) ↔
      (a < g.edges.length ∧ g.tail a = u ∧ is_path g (g.head a) p (g.tail e)) ∧
        e < g.edges.length ∧ g.head e = v
    rw [h]
    tauto

theorem path_score_concat {S : Type} [LinearOrderedAddCommMonoid S] (w : Nat → S)
    (p : List Nat) (e : Nat) : path_score w (p ++ [e]) = path_score w p + w e := by
  simp [path_score]

theorem path_score_nil {S : Type} [LinearOrderedAddCommMonoid S] (w : Nat → S) :
    path_score w [] = 0 := by
  simp [path_score]

/-! ## Relaxation -/

section relaxation

variable {S : Type} [LinearOrderedAddCommMonoid S]

theorem relax_mono (g : Lattice) (w : Nat → S) (st : Search S) (e v : Nat) (d : S)
    (h : st.best v = some d) : ∃ d', (relax g w st e).best v = some d' ∧ d ≤ d' := by
  unfold relax
  cases ht : st.best (g.tail e) with
  | none => exact ⟨d, h, le_refl d⟩
  | some dt =>
    cases hh : st.best (g.head e) with
    | none =>
      have hne : v ≠ g.head e := by
        intro hv; rw [hv, hh] at h; cases h
      exact ⟨d, by simp [Function.update_noteq hne, h], le_refl d⟩
    | some old =>
      by_cases hlt : old < dt + w e
      · by_cases hv : v = g.head e
        · subst hv
          rw [hh] at h
          cases h
          exact ⟨dt + w e, by simp [hlt], le_of_lt hlt⟩
        · exact ⟨d, by simp [hlt, Function.update_noteq hv, h], le_refl d⟩
      · exact ⟨d, by simp [hlt, h], le_refl d⟩

theorem relax_ge (g : Lattice) (w : Nat → S) (st : Search S) (e : Nat) (dt : S)
    (ht : st.best (g.tail e) = some dt) :
    ∃ d, (relax g w st e).best (g.head e) = some d ∧ dt + w e ≤ d := by
  unfold relax
  rw [ht]
  cases hh : st.best (g.head e) with
  | none => exact ⟨dt + w e, by simp, le_refl _⟩
  | some old =>
    by_cases hlt : old < dt + w e
    · exact ⟨dt + w e, by simp [hlt], le_refl _⟩
    · exact ⟨old, by simp [hlt, hh], not_lt.mp hlt⟩

theorem foldl_relax_mono (g : Lattice) (w : Nat → S) (es : List Nat) (st : Search S)
    (v : Nat) (d : S) (h : st.best v = some d) :
    ∃ d', (es.foldl (relax g w) st).best v = some d' ∧ d ≤ d' := by
  induction es generalizing st d with
  | nil => exact ⟨d, h, le_refl d⟩
  | cons e es ih =>
    obtain ⟨d1, h1, hle1⟩ := relax_mono g w st e v d h
    obtain ⟨d2, h2, hle2⟩ := ih (relax g w st e) d1 h1
    exact ⟨d2, h2, le_trans hle1 hle2⟩

theorem visit_mono (g : Lattice) (w : Nat → S) (st : Search S) (u v : Nat) (d : S)
    (h : st.best v = some d) : ∃ d', (visit g w st u).best v = some d' ∧ d ≤ d' :=
  foldl_relax_mono g w _ st v d h

theorem foldl_visit_mono (g : Lattice) (w : Nat → S) (vs : List Nat) (st : Search S)
    (v : Nat) (d : S) (h : st.best v = some d) :
    ∃ d', (vs.foldl (visit g w) st).best v = some d' ∧ d ≤ d' := by
  induction vs generalizing st d with
  | nil => exact ⟨d, h, le_refl d⟩
  | cons u vs ih =>
    obtain ⟨d1, h1, hle1⟩ := visit_mono g w st u v d h
    obtain ⟨d2, h2, hle2⟩ := ih (visit g w st u) d1 h1
    exact ⟨d2, h2, le_trans hle1 hle2⟩

theorem foldl_relax_ge (g : Lattice) (w : Nat → S) (es : List Nat) (st : Search S)
    (e : Nat) (he : e ∈ es) (dt : S) (ht : st.best (g.tail e) = some dt) :
    ∃ d, (es.foldl (relax g w) st).best (g.head e) = some d ∧ dt + w e ≤ d := by
  induction es generalizing st dt with
  | nil => cases he
  | cons a es ih =>
    rcases List.mem_cons.mp he with hea | hmem
    · subst hea
      obtain ⟨d1, h1, hle1⟩ := relax_ge g w st e dt ht
      obtain ⟨d2, h2, hle2⟩ := foldl_relax_mono g w es (relax g w st e) (g.head e) d1 h1
      exact ⟨d2, h2, le_trans hle1 hle2⟩
    · obtain ⟨dt1, ht1, hlet⟩ := relax_mono g w st a (g.tail e) dt ht
      obtain ⟨d2, h2, hle2⟩ := ih (relax g w st a) hmem dt1 ht1
      exact ⟨d2, h2, le_trans (add_le_add_right hlet (w e)) hle2⟩

theorem mem_out_edges (g : Lattice) (e : Nat) (he : e < g.edges.length) :
    e ∈ out_edges g (g.tail e) := by
  simp [out_edges, he]

theorem out_edges_valid (g : Lattice) (v e : Nat) (he : e ∈ out_edges g v) :
    e < g.edges.length ∧ g.tail e = v := by
  simpa [out_edges] using he

end relaxation

end Segbin

namespace Segbin

/-! ## Invariants of the search -/

section invariants

variable {S : Type} [LinearOrderedAddCommMonoid S]

theorem pred_ok_init (g : Lattice) (w : Nat → S) : pred_ok g w (search_init : Search S) := by
  refine ⟨by simp [search_init], ?_⟩
  intro v d h hv
  simp [search_init, hv] at h

theorem pred_ok_relax (g : Lattice) (hf : forward g) (w : Nat → S) (st : Search S) (e : Nat)
    (he : e < g.edges.length) (h : pred_ok g w st) : pred_ok g w (relax g w st e) := by
  have hlt := forward_tail_lt g hf e he
  have hne : g.tail e ≠ g.head e := Nat.ne_of_lt hlt
  have hh0 : (0 : Nat) ≠ g.head e := by omega
  obtain ⟨h0, hp⟩ := h
  unfold relax
  cases ht : st.best (g.tail e) with
  | none => exact ⟨h0, hp⟩
  | some dt =>
    -- the state after an update of the head
    have key : ∀ old : Option S, st.best (g.head e) = old →
        (∀ o, old = some o → o < dt + w e) →
        pred_ok g w
          { best := Function.update st.best (g.head e) (some (dt + w e))
            pred := Function.update st.pred (g.head e) (some e) } := by
      intro old hold hlt'
      refine ⟨by simp [Function.update_noteq hh0, h0], ?_⟩
      intro v d hv hv0
      by_cases hvh : v = g.head e
      · subst hvh
        simp only [Function.update_same, Option.some.injEq] at hv
        refine ⟨e, dt, by simp, he, rfl, ?_, le_of_eq hv.symm⟩
        simp [Function.update_noteq hne, ht]
      · simp only [Function.update_noteq hvh] at hv
        obtain ⟨e0, d0, hp0, he0, hh0', hb0, hle0⟩ := hp v d hv hv0
        by_cases hte : g.tail e0 = g.head e
        · rw [hte, hold] at hb0
          have hlt0 := hlt' d0 hb0
          refine ⟨e0, dt + w e, by simp [Function.update_noteq hvh, hp0], he0, hh0', ?_, ?_⟩
          · rw [hte]; simp
          · exact le_trans hle0 (add_le_add_right (le_of_lt hlt0) (w e0))
        · exact ⟨e0, d0, by simp [Function.update_noteq hvh, hp0], he0, hh0',
            by simp [Function.update_noteq hte, hb0], hle0⟩
    cases hh : st.best (g.head e) with
    | none =>
      exact key none hh (by intro o ho; cases ho)
    | some old =>
      by_cases hlt2 : old < dt + w e
      · simp only [hlt2, if_true]
        exact key (some old) hh (by intro o ho; cases ho; exact hlt2)
      · simp only [hlt2, if_false]
        exact ⟨h0, hp⟩

theorem pred_ok_foldl_relax (g : Lattice) (hf : forward g) (w : Nat → S) (es : List Nat)
    (st : Search S) (hes : ∀ e ∈ es, e < g.edges.length) (h : pred_ok g w st) :
    pred_ok g w (es.foldl (relax g w) st) := by
  induction es generalizing st with
  | nil => exact h
  | cons e es ih =>
    exact ih (relax g w st e) (fun x hx => hes x (List.mem_cons_of_mem _ hx))
      (pred_ok_relax g hf w st e (hes e (List.mem_cons_self _ _)) h)

theorem pred_ok_visit (g : Lattice) (hf : forward g) (w : Nat → S) (st : Search S) (u : Nat)
    (h : pred_ok g w st) : pred_ok g w (visit g w st u) :=
  pred_ok_foldl_relax g hf w _ st (fun e he => (out_edges_valid g u e he).1) h

theorem pred_ok_foldl_visit (g : Lattice) (hf : forward g) (w : Nat → S) (vs : List Nat)
    (st : Search S) (h : pred_ok g w st) : pred_ok g w (vs.foldl (visit g w) st) := by
  induction vs generalizing st with
  | nil => exact h
  | cons u vs ih => exact ih (visit g w st u) (pred_ok_visit g hf w st u h)

theorem opt_ok_visit (g : Lattice) (w : Nat → S) (st : Search S) (done : List Nat)
    (u : Nat) (h0 : st.best 0 = some 0) (hopt : opt_ok g w st done)
    (hpre : ∀ e, e < g.edges.length → g.head e = u → g.tail e ∈ done) :
    opt_ok g w (visit g w st u) (done ++ [u]) := by
  intro q e he hmem hq
  rcases List.mem_append.mp hmem with hd | hu
  · obtain ⟨d, hd1, hd2⟩ := hopt q e he hd hq
    obtain ⟨d', hd3, hd4⟩ := visit_mono g w st u (g.head e) d hd1
    exact ⟨d', hd3, le_trans hd2 hd4⟩
  · have htu : g.tail e = u := by simpa using hu
    -- the best score of `u` before the visit accounts for `q`
    have hbu : ∃ du, st.best (g.tail e) = some du ∧ path_score w q ≤ du := by
      rcases List.eq_nil_or_concat q with hnil | ⟨q', e', hq'⟩
      · subst hnil
        have : (0 : Nat) = g.tail e := hq
        rw [← this]
        exact ⟨0, h0, by simp [path_score_nil]⟩
      · rw [List.concat_eq_append] at hq'
        subst hq'
        obtain ⟨hq1, hq2, hq3⟩ := (is_path_concat g 0 (g.tail e) q' e').mp hq
        have hin : g.tail e' ∈ done := hpre e' hq2 (hq3.trans htu)
        obtain ⟨d, hd1, hd2⟩ := hopt q' e' hq2 hin hq1
        rw [hq3] at hd1
        exact ⟨d, hd1, by rw [path_score_concat]; exact hd2⟩
    obtain ⟨du, hdu1, hdu2⟩ := hbu
    have hin : e ∈ out_edges g u := htu ▸ mem_out_edges g e he
    obtain ⟨d, hd1, hd2⟩ := foldl_relax_ge g w (out_edges g u) st e hin du hdu1
    exact ⟨d, hd1, le_trans (add_le_add_right hdu2 (w e)) hd2⟩

theorem opt_ok_foldl_visit (g : Lattice) (hf : forward g) (w : Nat → S) (order : List Nat)
    (hvalid : ∀ done u rest, order = done ++ u :: rest →
      ∀ e, e < g.edges.length → g.head e = u → g.tail e ∈ done)
    (rest done : List Nat) (st : Search S) (hsplit : order = done ++ rest)
    (hp : pred_ok g w st) (hopt : opt_ok g w st done) :
    opt_ok g w (rest.foldl (visit g w) st) (done ++ rest) := by
  induction rest generalizing done st with
  | nil => simpa using hopt
  | cons u rest ih =>
    have h1 := opt_ok_visit g w st done u hp.1 hopt (hvalid done u rest hsplit)
    have h2 := ih (done ++ [u]) (visit g w st u) (by simp [hsplit])
      (pred_ok_visit g hf w st u hp) h1
    simpa using h2

theorem opt_ok_final (g : Lattice) (hf : forward g) (w : Nat → S) (order : List Nat)
    (hvalid : topo_valid g order) :
    opt_ok g w (order.foldl (visit g w) (search_init : Search S)) order := by
  have h := opt_ok_foldl_visit g hf w order hvalid.2 order [] search_init (by simp)
    (pred_ok_init g w) (by intro q e _ hmem; cases hmem)
  simpa using h

end invariants

end Segbin

namespace Segbin

/-! ## Path reconstruction and the search result -/

section result

variable {S : Type} [LinearOrderedAddCommMonoid S]

theorem walk_back_spec (g : Lattice) (hf : forward g) (w : Nat → S) (st : Search S)
    (hp : pred_ok g w st) (fuel v : Nat) (d : S) (hv : v ≤ fuel) (hb : st.best v = some d) :
    ∃ p, walk_back g st fuel v = some p ∧ is_path g 0 p.reverse v ∧
      d ≤ path_score w p.reverse := by
  induction fuel generalizing v d with
  | zero =>
    have hv0 : v = 0 := by omega
    subst hv0
    rw [hp.1] at hb
    cases hb
    exact ⟨[], rfl, rfl, by simp [path_score_nil]⟩
  | succ fuel ih =>
    cases v with
    | zero =>
      rw [hp.1] at hb
      cases hb
      exact ⟨[], rfl, rfl, by simp [path_score_nil]⟩
    | succ v =>
      obtain ⟨e, d', hpe, he, hhe, hbt, hle⟩ := hp.2 (v + 1) d hb (by omega)
      have hlt := forward_tail_lt g hf e he
      obtain ⟨p, hw, hpath, hsc⟩ := ih (g.tail e) d' (by omega) hbt
      refine ⟨e :: p, by simp [walk_back, hpe, hw], ?_, ?_⟩
      · rw [List.reverse_cons, is_path_concat]
        exact ⟨hpath, he, hhe⟩
      · rw [List.reverse_cons, path_score_concat]
        exact le_trans hle (add_le_add_right hsc (w e))

theorem shortest_path_ok_of_best (g : Lattice) (hf : forward g) (w : Nat → S)
    (order : List Nat) (d : S)
    (hb : (order.foldl (visit g w) (search_init : Search S)).best g.T = some d) :
    ∃ p, shortest_path g order w = .ok p ∧ is_path g 0 p g.T ∧ d ≤ path_score w p := by
  have hp := pred_ok_foldl_visit g hf w order search_init (pred_ok_init g w)
  obtain ⟨p, hw, hpath, hsc⟩ :=
    walk_back_spec g hf w _ hp g.nverts g.T d (by simp [Lattice.nverts]) hb
  exact ⟨p.reverse, by simp [shortest_path, hb, hw], hpath, hsc⟩

theorem shortest_path_error_of_best (g : Lattice) (w : Nat → S) (order : List Nat)
    (hb : (order.foldl (visit g w) (search_init : Search S)).best g.T = none) :
    shortest_path g order w = .error .no_path := by
  simp [shortest_path, hb]

theorem shortest_path_unreachable (g : Lattice) (hf : forward g) (w : Nat → S)
    (order : List Nat) (hun : ¬ ∃ q, is_path g 0 q g.T) :
    shortest_path g order w = .error .no_path := by
  apply shortest_path_error_of_best
  cases hb : (order.foldl (visit g w) (search_init : Search S)).best g.T with
  | none => rfl
  | some d =>
    obtain ⟨p, _, hpath, _⟩ := shortest_path_ok_of_best g hf w order d hb
    exact absurd ⟨p, hpath⟩ hun

theorem best_ge_path (g : Lattice) (hf : forward g) (w : Nat → S) (order : List Nat)
    (hvalid : topo_valid g order) (q : List Nat) (hq : is_path g 0 q g.T) :
    ∃ d, (order.foldl (visit g w) (search_init : Search S)).best g.T = some d ∧
      path_score w q ≤ d := by
  have hp := pred_ok_foldl_visit g hf w order search_init (pred_ok_init g w)
  rcases List.eq_nil_or_concat q with hnil | ⟨q', e, hq'⟩
  · subst hnil
    have h0 : (0 : Nat) = g.T := hq
    rw [← h0]
    exact ⟨0, hp.1, by simp [path_score_nil]⟩
  · rw [List.concat_eq_append] at hq'
    subst hq'
    obtain ⟨hq1, hq2, hq3⟩ := (is_path_concat g 0 g.T q' e).mp hq
    have hlt := forward_tail_lt g hf e hq2
    have hin : g.tail e ∈ order := hvalid.1 _ (by omega)
    obtain ⟨d, hd1, hd2⟩ := opt_ok_final g hf w order hvalid q' e hq2 hin hq1
    rw [hq3] at hd1
    exact ⟨d, hd1, by rw [path_score_concat]; exact hd2⟩

theorem shortest_path_optimal (g : Lattice) (hf : forward g) (w : Nat → S) (order : List Nat)
    (hvalid : topo_valid g order) (p : List Nat) (hres : shortest_path g order w = .ok p) :
    is_path g 0 p g.T ∧ ∀ q, is_path g 0 q g.T → path_score w q ≤ path_score w p := by
  cases hb : (order.foldl (visit g w) (search_init : Search S)).best g.T with
  | none =>
    rw [shortest_path_error_of_best g w order hb] at hres
    cases hres
  | some d =>
    obtain ⟨p', hok, hpath, hsc⟩ := shortest_path_ok_of_best g hf w order d hb
    rw [hok] at hres
    cases hres
    refine ⟨hpath, ?_⟩
    intro q hq
    obtain ⟨d', hd1, hd2⟩ := best_ge_path g hf w order hvalid q hq
    rw [hb] at hd1
    cases hd1
    exact le_trans hd2 hsc

theorem shortest_path_total (g : Lattice) (hf : forward g) (w : Nat → S) (order : List Nat)
    (hvalid : topo_valid g order) (hre : ∃ q, is_path g 0 q g.T) :
    ∃ p, shortest_path g order w = .ok p := by
  obtain ⟨q, hq⟩ := hre
  obtain ⟨d, hd1, _⟩ := best_ge_path g hf w order hvalid q hq
  obtain ⟨p, hok, _, _⟩ := shortest_path_ok_of_best g hf w order d hd1
  exact ⟨p, hok⟩

theorem shortest_path_start_is_end (g : Lattice) (hf : forward g) (w : Nat → S)
    (order : List Nat) (hT : g.T = 0) : shortest_path g order w = .ok [] := by
  have hp := pred_ok_foldl_visit g hf w order search_init (pred_ok_init g w)
  have hb : (order.foldl (visit g w) (search_init : Search S)).best g.T = some 0 := by
    rw [hT]; exact hp.1
  have hw : walk_back g (order.foldl (visit g w) (search_init : Search S)) g.nverts g.T =
      some [] := by
    rw [hT]; simp [Lattice.nverts, walk_back]
  simp [shortest_path, hb, hw]

end result

end Segbin

namespace Segbin

/-! ## The lattice builder -/

theorem make_graph_edge (T : Nat) (label_id : List (String × Nat)) (id_label : List String)
    (min_seg max_seg stride : Int) (e : Edge)
    (he : e ∈ (make_graph T label_id id_label min_seg max_seg stride).edges) :
    e.tail < e.head ∧ e.head ≤ T ∧ min_seg ≤ (e.head : Int) - (e.tail : Int) ∧
      (e.head : Int) - (e.tail : Int) ≤ max_seg ∧ aligned stride e.tail = true ∧
      e.output < id_label.length := by
  simp only [make_graph, List.mem_flatMap, List.mem_range] at he
  obtain ⟨t1, _, t2, _, hmem⟩ := he
  split at hmem
  · rename_i hcond
    simp only [List.mem_map, List.mem_range] at hmem
    obtain ⟨l, hl, rfl⟩ := hmem
    simp only [seg_ok, Bool.and_eq_true, decide_eq_true_eq] at hcond
    obtain ⟨ha, ⟨⟨⟨h1, h2⟩, h3⟩, h4⟩⟩ := hcond
    exact ⟨h1, h2, h3, h4, ha, hl⟩
  · cases hmem

theorem make_graph_forward (T : Nat) (label_id : List (String × Nat)) (id_label : List String)
    (min_seg max_seg stride : Int) :
    forward (make_graph T label_id id_label min_seg max_seg stride) := by
  intro e he
  have h := make_graph_edge T label_id id_label min_seg max_seg stride e he
  exact ⟨h.1, h.2.1⟩

theorem make_graph_no_edges (T : Nat) (label_id : List (String × Nat)) (id_label : List String)
    (min_seg max_seg stride : Int) (h : (T : Int) < min_seg) :
    (make_graph T label_id id_label min_seg max_seg stride).edges = [] := by
  apply List.eq_nil_iff_forall_not_mem.mpr
  intro e he
  have h' := make_graph_edge T label_id id_label min_seg max_seg stride e he
  obtain ⟨h1, h2, h3, _⟩ := h'
  omega

theorem no_edges_unreachable (g : Lattice) (hE : g.edges = []) (hT : 0 < g.T) :
    ¬ ∃ q, is_path g 0 q g.T := by
  rintro ⟨q, hq⟩
  cases q with
  | nil =>
    have : (0 : Nat) = g.T := hq
    omega
  | cons e q =>
    have := hq.1
    rw [hE] at this
    simp at this

/-! ## The topological order -/

theorem ready_spec (g : Lattice) (waiting : List Nat) (v : Nat) (h : ready g waiting v = true)
    (e : Nat) (he : e < g.edges.length) (hh : g.head e = v) : g.tail e ∉ waiting := by
  simp only [ready, List.all_eq_true] at h
  have := h _ (edge_mem g e he)
  intro hin
  simp [Lattice.head, Lattice.tail] at hh hin
  simp [hh, hin] at this

theorem ready_of_min (g : Lattice) (hf : forward g) (waiting : List Nat) (m : Nat)
    (hmin : ∀ x ∈ waiting, m ≤ x) : ready g waiting m = true := by
  simp only [ready, List.all_eq_true]
  intro e he
  have h := (hf e he).1
  by_cases hh : e.head = m
  · have : e.tail ∉ waiting := fun hin => by
      have := hmin _ hin
      omega
    simp [hh, this]
  · simp [hh]

theorem exists_min_mem (l : List Nat) (hne : l ≠ []) : ∃ m ∈ l, ∀ x ∈ l, m ≤ x := by
  induction l with
  | nil => exact absurd rfl hne
  | cons a l ih =>
    by_cases hl : l = []
    · subst hl
      exact ⟨a, by simp, by simp⟩
    · obtain ⟨m, hm, hmin⟩ := ih hl
      by_cases ham : a ≤ m
      · refine ⟨a, by simp, ?_⟩
        intro x hx
        rcases List.mem_cons.mp hx with rfl | hx'
        · exact le_refl _
        · exact le_trans ham (hmin x hx')
      · refine ⟨m, List.mem_cons_of_mem _ hm, ?_⟩
        intro x hx
        rcases List.mem_cons.mp hx with rfl | hx'
        · omega
        · exact hmin x hx'

theorem topo_loop_valid (g : Lattice) (hf : forward g) (fuel : Nat) (waiting done : List Nat)
    (hfuel : waiting.length ≤ fuel)
    (hall : ∀ v, v ≤ g.T → v ∈ done ∨ v ∈ waiting) :
    (∀ v ∈ waiting, v ∈ topo_loop g fuel waiting) ∧
      ∀ d u r, topo_loop g fuel waiting = d ++ u :: r →
        ∀ e, e < g.edges.length → g.head e = u → g.tail e ∈ done ∨ g.tail e ∈ d := by
  induction fuel generalizing waiting done with
  | zero =>
    have hw : waiting = [] := List.length_eq_zero.mp (by omega)
    subst hw
    refine ⟨by simp, ?_⟩
    intro d u r h
    simp [topo_loop] at h
  | succ fuel ih =>
    by_cases hne : waiting = []
    · subst hne
      refine ⟨by simp, ?_⟩
      intro d u r h
      simp [topo_loop] at h
    · obtain ⟨m, hm, hmin⟩ := exists_min_mem waiting hne
      have hready := ready_of_min g hf waiting m hmin
      cases hfind : waiting.find? (ready g waiting) with
      | none =>
        rw [List.find?_eq_none] at hfind
        exact absurd hready (hfind m hm)
      | some v =>
        have hvr : ready g waiting v = true := List.find?_some hfind
        have hvm : v ∈ waiting := List.mem_of_find?_eq_some hfind
        have hloop : topo_loop g (fuel + 1) waiting = v :: topo_loop g fuel (waiting.erase v) := by
          simp [topo_loop, hfind]
        have hlen : (waiting.erase v).length ≤ fuel := by
          rw [List.length_erase_of_mem hvm]; omega
        have hall' : ∀ x, x ≤ g.T → x ∈ done ++ [v] ∨ x ∈ waiting.erase v := by
          intro x hx
          rcases hall x hx with h | h
          · exact Or.inl (List.mem_append_left _ h)
          · by_cases hxv : x = v
            · exact Or.inl (by simp [hxv])
            · exact Or.inr ((List.mem_erase_of_ne hxv).mpr h)
        obtain ⟨ih1, ih2⟩ := ih (waiting.erase v) (done ++ [v]) hlen hall'
        rw [hloop]
        refine ⟨?_, ?_⟩
        · intro x hx
          by_cases hxv : x = v
          · simp [hxv]
          · exact List.mem_cons_of_mem _ (ih1 x ((List.mem_erase_of_ne hxv).mpr hx))
        · intro d u r hsplit e he hh
          cases d with
          | nil =>
            simp only [List.nil_append, List.cons.injEq] at hsplit
            obtain ⟨hvu, _⟩ := hsplit
            subst hvu
            have hnot := ready_spec g waiting v hvr e he hh
            have hlt := forward_tail_lt g hf e he
            have hle := forward_head_le g hf e he
            rcases hall (g.tail e) (by omega) with h | h
            · exact Or.inl h
            · exact absurd h hnot
          | cons a d =>
            simp only [List.cons_append, List.cons.injEq] at hsplit
            obtain ⟨hva, hrest⟩ := hsplit
            subst hva
            rcases ih2 d u r hrest e he hh with h | h
            · rcases List.mem_append.mp h with h' | h'
              · exact Or.inl h'
              · exact Or.inr (by simp at h'; simp [h'])
            · exact Or.inr (List.mem_cons_of_mem _ h)

theorem topo_order_valid (g : Lattice) (hf : forward g) : topo_valid g (topo_order g) := by
  obtain ⟨h1, h2⟩ := topo_loop_valid g hf g.nverts (List.range g.nverts) []
    (by simp) (by intro v hv; right; simp [Lattice.nverts]; omega)
  refine ⟨?_, ?_⟩
  · intro v hv
    exact h1 v (by simp [Lattice.nverts]; omega)
  · intro d u r hsplit e he hh
    rcases h2 d u r hsplit e he hh with h | h
    · cases h
    · exact h

end Segbin

namespace Segbin

/-! ## Printing -/

theorem print_utterance_err {S P : Type} (env : Env S P) (g : Lattice) (path : List Nat) (n m : Nat) :
    (print_utterance env g path n).err = (print_utterance env g path m).err := by
  unfold print_utterance
  by_cases hpp : args_in env.args "print-path" = true
  · simp only [hpp, if_true]
    cases h : (print_records g env.id_label path).err <;> simp [h]
  · simp only [hpp, if_false]
    cases h : (print_labels g env.id_label path).err <;> simp [h]

section driver

variable {S : Type} [LinearOrderedAddCommMonoid S] {P V : Type}

theorem decode_err (lib : Lib S P V) (env : Env S P) (frames : List (List S)) (n m : Nat) :
    (decode lib env frames n).err = (decode lib env frames m).err := by
  unfold decode
  cases h : decode_path lib env frames with
  | error e => rfl
  | ok gp => exact print_utterance_err env gp.1 gp.2 n m

theorem decodes_ok_of_zero (lib : Lib S P V) (env : Env S P) (r : Read S)
    (hr : r.failed = false) (h : (decode lib env r.frames 0).err = none) :
    decodes_ok lib env r :=
  ⟨hr, fun n => (decode_err lib env r.frames n 0).trans h⟩

theorem run_loop_append (lib : Lib S P V) (env : Env S P) (pre rest : List (Read S))
    (n : Nat) (hpre : ∀ x ∈ pre, decodes_ok lib env x) :
    run_loop lib env (pre ++ rest) n =
      { toks := (run_loop lib env pre n).toks ++ (run_loop lib env rest (n + pre.length)).toks
        err := (run_loop lib env rest (n + pre.length)).err } := by
  induction pre generalizing n with
  | nil => simp [run_loop]
  | cons r pre ih =>
    have hr := hpre r (List.mem_cons_self _ _)
    have hrest : ∀ x ∈ pre, decodes_ok lib env x :=
      fun x hx => hpre x (List.mem_cons_of_mem _ hx)
    have hidx : n + 1 + pre.length = n + (r :: pre).length := by
      simp only [List.length_cons]; omega
    show run_loop lib env (r :: (pre ++ rest)) n = _
    rw [run_loop, run_loop]
    simp only [hr.1, hr.2 n, Bool.false_eq_true, if_false]
    rw [ih (n + 1) hrest, hidx]
    simp [List.append_assoc]

theorem run_loop_failed (lib : Lib S P V) (env : Env S P) (r : Read S) (rest : List (Read S))
    (n : Nat) (hr : r.failed = true) :
    run_loop lib env (r :: rest) n = { toks := [], err := none } := by
  simp [run_loop, hr]

theorem is_path_valid (g : Lattice) (u v : Nat) (p : List Nat) (h : is_path g u p v) :
    ∀ e ∈ p, e < g.edges.length := by
  induction p generalizing u with
  | nil => intro e he; cases he
  | cons a p ih =>
    intro e he
    rcases List.mem_cons.mp he with rfl | hmem
    · exact h.1
    · exact ih (g.head a) h.2.2 e hmem

theorem decode_path_ok (lib : Lib S P V) (env : Env S P) (frames : List (List S))
    (g : Lattice) (p : List Nat) (h : decode_path lib env frames = .ok (g, p)) :
    ∃ first, frames.head? = some first ∧ g = utterance_graph lib env frames first ∧
      shortest_path g (topo_order g) (utterance_weights lib env frames first) = .ok p := by
  unfold decode_path at h
  cases hf : frames.head? with
  | none => simp [hf] at h
  | some first =>
    simp only [hf] at h
    cases hs : shortest_path (utterance_graph lib env frames first)
        (topo_order (utterance_graph lib env frames first))
        (utterance_weights lib env frames first) with
    | error e => simp [hs] at h
    | ok path =>
      simp only [hs, Except.ok.injEq, Prod.mk.injEq] at h
      obtain ⟨hg, hp⟩ := h
      subst hg hp
      exact ⟨first, rfl, rfl, hs⟩

theorem decode_path_labels_valid (lib : Lib S P V) (env : Env S P) (frames : List (List S))
    (g : Lattice) (p : List Nat) (h : decode_path lib env frames = .ok (g, p)) :
    ∀ e ∈ p, g.output e < env.id_label.length := by
  obtain ⟨first, _, hg, hs⟩ := decode_path_ok lib env frames g p h
  have hf : forward g := hg ▸ make_graph_forward _ _ _ _ _ _
  have hpath := (shortest_path_optimal g hf _ _ (topo_order_valid g hf) p hs).1
  intro e he
  have hlt := is_path_valid g 0 g.T p hpath e he
  have hm := edge_mem g e hlt
  rw [hg] at hm
  have := (make_graph_edge _ _ _ _ _ _ _ hm).2.2.2.2.2
  rw [hg]
  exact this

end driver

end Segbin

namespace Segbin

/-! ## The claims -/

/-- C1, as stated, fails: a read that fails in the middle of a record
(`failbit` set, stream not at its end, a frame already read) ends the loop
of `run` exactly as the end of the stream does, with no exception raised. -/
theorem truncated_read_ends_loop_silently :
    example_truncated.failed = true ∧ example_truncated.eofbit = false ∧
      example_truncated.frames ≠ [] ∧
      run example_lib example_env_truncated = run example_lib example_env_clean ∧
      (run example_lib example_env_truncated).err = none := by
  decide!

/-- C1, amended: `run` ends normally at the first read after which the
stream tests as failed, whatever the cause (end of stream or a failed read),
having written exactly the output of the utterances read before it; the
frames of the failed read and the rest of the stream are not looked at. -/
theorem run_ends_at_first_failed_read {S : Type} [LinearOrderedAddCommMonoid S] {P V : Type}
    (lib : Lib S P V) (env : Env S P) (pre rest : List (Read S)) (r : Read S)
    (hpre : ∀ x ∈ pre, decodes_ok lib env x) (hr : r.failed = true)
    (hfb : env.frame_batch = pre ++ r :: rest) :
    run lib env = { toks := (run_loop lib env pre 1).toks, err := none } := by
  unfold run
  rw [hfb, run_loop_append lib env pre (r :: rest) 1 hpre, run_loop_failed lib env r rest _ hr]
  simp

/-- Witness of `run_ends_at_first_failed_read` on the example stream. -/
theorem run_ends_at_first_failed_read_witness :
    run example_lib example_env_truncated =
      { toks := (run_loop example_lib example_env_truncated [example_read 4] 1).toks,
        err := none } :=
  run_ends_at_first_failed_read example_lib example_env_truncated [example_read 4] []
    example_truncated
    (by
      intro x hx
      rw [List.mem_singleton] at hx
      subst hx
      exact decodes_ok_of_zero _ _ _ (by decide) (by decide!))
    (by decide) rfl

/-- C2, as stated, fails: with an encoder output of no row the lattice has
`T = 0`, so `min_seg = 1` exceeds `T`, yet vertex `T` is vertex `0`, the
search returns the empty path and `run` writes a line without any label. -/
theorem empty_lattice_prints_empty_path :
    ((hidden_of example_lib_empty example_env (example_read 1).frames [0]).size0 : Int) <
        example_env.min_seg ∧
      decode example_lib_empty example_env (example_read 1).frames 1 =
        { toks := [.str "(", .num 1, .str ".dot)", .endl], err := none } := by
  decide!

/-- C2, amended: when vertex `T` of the lattice of an utterance cannot be
reached from vertex `0`, decoding the utterance raises `no_path` and writes
nothing, and `run` stops there with the output of the earlier utterances
only; this is the case whenever `min_seg` exceeds `T` and `T > 0`. For
`T = 0` vertex `T` is vertex `0` and the empty path is printed. -/
theorem unreachable_end_fails {S : Type} [LinearOrderedAddCommMonoid S] {P V : Type}
    (lib : Lib S P V) (env : Env S P) (frames : List (List S)) (first : List S)
    (hfirst : frames.head? = some first) :
    ((¬ ∃ q, is_path (utterance_graph lib env frames first) 0 q
          (utterance_graph lib env frames first).T) →
        (∀ n, decode lib env frames n = { toks := [], err := some .no_path }) ∧
        ∀ (pre rest : List (Read S)) (r : Read S) (n : Nat),
          (∀ x ∈ pre, decodes_ok lib env x) → r.failed = false → r.frames = frames →
          run_loop lib env (pre ++ r :: rest) n =
            { toks := (run_loop lib env pre n).toks, err := some .no_path }) ∧
      (0 < (hidden_of lib env frames first).size0 →
        ((hidden_of lib env frames first).size0 : Int) < env.min_seg →
        ¬ ∃ q, is_path (utterance_graph lib env frames first) 0 q
          (utterance_graph lib env frames first).T) ∧
      ((hidden_of lib env frames first).size0 = 0 →
        ∀ n, decode lib env frames n =
          if args_in env.args "print-path" then
            { toks := [.num n, .str ".txt", .endl, .str ".", .endl], err := none }
          else { toks := [.str "(", .num n, .str ".dot)", .endl], err := none }) := by
  refine ⟨?_, ?_, ?_⟩
  · intro hun
    have hdec : ∀ n, decode lib env frames n = { toks := [], err := some .no_path } := by
      intro n
      have hs := shortest_path_unreachable (utterance_graph lib env frames first)
        (make_graph_forward _ _ _ _ _ _) (utterance_weights lib env frames first)
        (topo_order (utterance_graph lib env frames first)) hun
      simp [decode, decode_path, hfirst, hs]
    refine ⟨hdec, ?_⟩
    intro pre rest r n hpre hr hfr
    rw [run_loop_append lib env pre (r :: rest) n hpre]
    simp [run_loop, hr, hfr, hdec]
  · intro hT hmin
    exact no_edges_unreachable _ (make_graph_no_edges _ _ _ _ _ _ hmin) hT
  · intro hT n
    have hs := shortest_path_start_is_end (utterance_graph lib env frames first)
      (make_graph_forward _ _ _ _ _ _) (utterance_weights lib env frames first)
      (topo_order (utterance_graph lib env frames first)) hT
    by_cases hpp : args_in env.args "print-path" = true
    · simp [decode, decode_path, hfirst, hs, print_utterance, print_records, hpp]
    · simp [decode, decode_path, hfirst, hs, print_utterance, print_labels, hpp]

/-- Witness of `unreachable_end_fails`: four frames and segments of five. -/
theorem unreachable_end_fails_witness :
    decode example_lib example_env_long (example_read 4).frames 1 =
      { toks := [], err := some .no_path } :=
  ((unreachable_end_fails example_lib example_env_long (example_read 4).frames [0] rfl).1
    ((unreachable_end_fails example_lib example_env_long (example_read 4).frames [0] rfl).2.1
      (by decide) (by decide))).1 1

/-- C3: the path found for an utterance is a path of its lattice from
vertex `0` to vertex `T` whose cumulative score is at least that of every
path from `0` to `T`; and whenever such a path exists the search returns. -/
theorem search_result_optimal {S : Type} [LinearOrderedAddCommMonoid S] {P V : Type}
    (lib : Lib S P V) (env : Env S P) (frames : List (List S)) (first : List S)
    (hfirst : frames.head? = some first) :
    (∀ g p, decode_path lib env frames = .ok (g, p) →
        g = utterance_graph lib env frames first ∧ is_path g 0 p g.T ∧
        ∀ q, is_path g 0 q g.T →
          path_score (utterance_weights lib env frames first) q ≤
            path_score (utterance_weights lib env frames first) p) ∧
      ((∃ q, is_path (utterance_graph lib env frames first) 0 q
          (utterance_graph lib env frames first).T) →
        ∃ p, decode_path lib env frames =
          .ok (utterance_graph lib env frames first, p)) := by
  constructor
  · intro g p h
    obtain ⟨first', hf', hg, hs⟩ := decode_path_ok lib env frames g p h
    have hff : first' = first := by rw [hfirst] at hf'; exact (Option.some.inj hf').symm
    subst hff
    have hfw : forward g := hg ▸ make_graph_forward _ _ _ _ _ _
    exact ⟨hg, shortest_path_optimal g hfw _ _ (topo_order_valid g hfw) p hs⟩
  · intro hre
    have hfw : forward (utterance_graph lib env frames first) := make_graph_forward _ _ _ _ _ _
    obtain ⟨p, hp⟩ := shortest_path_total _ hfw (utterance_weights lib env frames first) _
      (topo_order_valid _ hfw) hre
    exact ⟨p, by simp [decode_path, hfirst, hp]⟩

/-- Witness of `search_result_optimal` on the example utterance. -/
theorem search_result_optimal_witness :
    ∃ p, decode_path example_lib example_env (example_read 4).frames =
      .ok (utterance_graph example_lib example_env (example_read 4).frames [0], p) :=
  (search_result_optimal example_lib example_env (example_read 4).frames [0] rfl).2
    ⟨[0, 4, 8, 12], by decide⟩

/-- C4, as stated, fails: in the example lattice the path `(0,2,a),(2,4,a)`
scores 2.2, the path of four one-frame segments labelled `a` scores more,
and the search does not return the former. -/
theorem example_claimed_path_not_maximal :
    is_path example_graph 0 [2, 10] 4 ∧
      [2, 10].map (fun e => example_graph.edges.getD e default) =
        [{ tail := 0, head := 2, output := 0 }, { tail := 2, head := 4, output := 0 }] ∧
      path_score (example_score example_graph) [2, 10] = 22 / 10 ∧
      is_path example_graph 0 [0, 4, 8, 12] 4 ∧
      path_score (example_score example_graph) [2, 10] <
        path_score (example_score example_graph) [0, 4, 8, 12] ∧
      shortest_path example_graph (topo_order example_graph) (example_score example_graph) ≠
        .ok [2, 10] := by
  decide!

/-- C4, amended: in the example the maximum-score path from vertex 0 to
vertex 4 is `(0,1,a),(1,2,a),(2,3,a),(3,4,a)` with total score 4, and the
labels written are `a a a a`. -/
theorem example_best_path :
    shortest_path example_graph (topo_order example_graph) (example_score example_graph) =
        .ok [0, 4, 8, 12] ∧
      [0, 4, 8, 12].map (fun e => example_graph.edges.getD e default) =
        [{ tail := 0, head := 1, output := 0 }, { tail := 1, head := 2, output := 0 },
         { tail := 2, head := 3, output := 0 }, { tail := 3, head := 4, output := 0 }] ∧
      path_score (example_score example_graph) [0, 4, 8, 12] = 4 ∧
      (∀ q, is_path example_graph 0 q example_graph.T →
        path_score (example_score example_graph) q ≤ 4) ∧
      decode example_lib example_env (example_read 4).frames 1 =
        { toks := [.str "a", .str " ", .str "a", .str " ", .str "a", .str " ", .str "a",
                   .str " ", .str "(", .num 1, .str ".dot)", .endl],
          err := none } := by
  have hres : shortest_path example_graph (topo_order example_graph)
      (example_score example_graph) = .ok [0, 4, 8, 12] := by decide!
  have hsc : path_score (example_score example_graph) [0, 4, 8, 12] = 4 := by decide!
  have hfw : forward example_graph := make_graph_forward _ _ _ _ _ _
  refine ⟨hres, by decide, hsc, ?_, by decide!⟩
  intro q hq
  have := (shortest_path_optimal example_graph hfw _ _ (topo_order_valid _ hfw) _ hres).2 q hq
  rwa [hsc] at this

/-- Witness of `example_best_path`: the path `(0,2,a),(2,4,a)` scores at most 4. -/
theorem example_best_path_witness :
    path_score (example_score example_graph) [2, 10] ≤ 4 :=
  example_best_path.2.2.2.1 [2, 10] (by decide)

end Segbin

namespace Segbin

/-- C8, as stated, fails: for the label list `a, a` the map sends the
label at index 0 to 1 and has one entry, not two. -/
theorem duplicate_labels_not_inverse :
    label_find (build_label_id ["a", "a"]) (["a", "a"].getD 0 "") = some 1 ∧
      (build_label_id ["a", "a"]).length = 1 ∧ ["a", "a"].length = 2 := by
  decide

/-- C8, amended: every entry of `label_id` points at an index of `id_label`
holding its key; and when `id_label` has no repeated label the two are
mutually inverse: every index is the image of its label and `label_id` has
exactly as many entries as `id_label`. -/
theorem label_map_inverse (id_label : List String) :
    (∀ s v, label_find (build_label_id id_label) s = some v → id_label[v]? = some s) ∧
      (id_label.Nodup →
        (∀ i s, id_label[i]? = some s → label_find (build_label_id id_label) s = some i) ∧
        (build_label_id id_label).length = id_label.length) := by
  refine ⟨?_, ?_⟩
  · exact label_loop_sound id_label id_label 0 [] (by intro j; simp)
      (by intro s v h; simp [label_find] at h)
  · intro hnd
    refine ⟨?_, ?_⟩
    · intro i s h
      have := label_loop_nodup_find id_label 0 [] hnd i s h
      simpa [build_label_id] using this
    · have := label_loop_nodup_length id_label 0 [] hnd (by intro s _; simp)
      simpa [build_label_id] using this

/-- Witness of `label_map_inverse` on the labels of the example. -/
theorem label_map_inverse_witness :
    (∀ i s, ["a", "b"][i]? = some s → label_find (build_label_id ["a", "b"]) s = some i) ∧
      (build_label_id ["a", "b"]).length = ["a", "b"].length :=
  (label_map_inverse ["a", "b"]).2 (by decide)

/-- C10, as stated, fails in its last sentence: frames of lengths 2, 1 and
3 have a frame of another length than the first, yet the buffer has
`nframes * ndim` elements. -/
theorem ragged_frames_same_length :
    (∃ f ∈ example_ragged, f.length ≠ 2) ∧
      (frame_cat example_ragged).length = example_ragged.length * 2 := by
  decide

/-- C10, amended: the buffer holds the frames one after another, so its
length is the sum of their lengths; when every frame has the length `d` of
the first, it has `nframes * d` elements, element `i * d + j` is element `j`
of frame `i`, and the tensor view of shape `{nframes, d}` covers it. -/
theorem frame_cat_row_major {S : Type} (frames : List (List S)) (first : List S)
    (hfirst : frames.head? = some first) :
    (frame_cat frames).length = (frames.map List.length).sum ∧
      ((∀ f ∈ frames, f.length = first.length) →
        (input_tensor frames first).data = frame_cat frames ∧
        (input_tensor frames first).sizes = [frames.length, first.length] ∧
        (frame_cat frames).length = frames.length * first.length ∧
        ∀ i j, i < frames.length → j < first.length →
          ∃ x, (frame_cat frames)[i * first.length + j]? = some x ∧
            (frames[i]?).bind (fun f => f[j]?) = some x) := by
  have _ := hfirst
  refine ⟨by rw [frame_cat_flatten, flatten_length_sum], ?_⟩
  intro hd
  have hlen : (frame_cat frames).length = frames.length * first.length := by
    rw [frame_cat_flatten, flatten_uniform_length frames first.length hd]
  refine ⟨rfl, rfl, hlen, ?_⟩
  intro i j hi hj
  have hidx : i * first.length + j < (frame_cat frames).length := by
    rw [hlen]
    calc i * first.length + j < i * first.length + first.length := by omega
      _ = (i + 1) * first.length := by rw [Nat.succ_mul]
      _ ≤ frames.length * first.length := Nat.mul_le_mul_right _ hi
  refine ⟨(frame_cat frames)[i * first.length + j], List.getElem?_eq_getElem hidx, ?_⟩
  rw [← flatten_uniform_get frames first.length hd i j hj, ← frame_cat_flatten]
  exact List.getElem?_eq_getElem hidx

/-- Witness of `frame_cat_row_major` on three frames of two values. -/
theorem frame_cat_row_major_witness :
    (frame_cat [[1, 2], [3, 4], [5, 6]]).length = 3 * 2 ∧
      ∀ i j, i < 3 → j < 2 →
        ∃ x, (frame_cat [[1, 2], [3, 4], [5, 6]])[i * 2 + j]? = some x ∧
          ([[1, 2], [3, 4], [5, 6]][i]?).bind (fun f => f[j]?) = some x :=
  let h := (frame_cat_row_major [[1, 2], [3, 4], [5, 6]] [1, 2] rfl).2 (by decide)
  ⟨h.2.2.1, h.2.2.2⟩

end Segbin
